import Mathlib

/-!
# Verification of the video-editor backend's segment, easing, progress and
# overlay logic

Shallow embedding of the pure computational core of the `video-editor`
repository.  Times, durations and zoom factors are embedded as rationals
(`ℚ`): the source performs exact small-scale arithmetic on JavaScript
numbers, and every concrete value appearing in the claims is exactly
representable.  A time interval `{ start, end }` is read as the half-open
interval `[start, end)`, the reading under which "every point is covered
exactly once" is meaningful for abutting segments.
-/

/-- A time segment `{ start: number, end: number }`, the shape shared by
`FillerSegment` and `SilenceSegment` in the backend sources.  The field
`end` keeps its source name (quoted, since `end` is a Lean keyword). -/
structure Seg where
  start : ℚ
  «end» : ℚ
deriving DecidableEq, Repr

/-- Membership of a time point in a segment, read half-open: `start ≤ t < end`. -/
def inSeg (t : ℚ) (s : Seg) : Prop :=
  s.start ≤ t ∧ t < s.«end»

instance (t : ℚ) (s : Seg) : Decidable (inSeg t s) :=
  inferInstanceAs (Decidable (_ ∧ _))

/-- JavaScript `Math.max` on two numbers (NaN excluded): the larger argument. -/
def jsMax (a b : ℚ) : ℚ := if a < b then b else a

/-- JavaScript `Math.min` on two numbers (NaN excluded): the smaller argument. -/
def jsMin (a b : ℚ) : ℚ := if b < a then b else a

namespace EditorRoutes

/-- The `for (const filler of fillerSegments)` loop of `buildKeepSegments`
in `src/backend/routers/editor.routes.ts` (lines 295–317), together with the
final `if (currentStart < totalDuration)` push, written as structural
recursion over the filler list with the running `currentStart` cursor. -/
def buildKeepSegmentsGo (totalDuration : ℚ) : ℚ → List Seg → List Seg
  | currentStart, [] =>
      if currentStart < totalDuration then [⟨currentStart, totalDuration⟩] else []
  | currentStart, filler :: rest =>
      (if filler.start > currentStart then [⟨currentStart, filler.start⟩] else [])
        ++ buildKeepSegmentsGo totalDuration filler.«end» rest

/-- `buildKeepSegments(fillerSegments, totalDuration)` from
`src/backend/routers/editor.routes.ts`: complement the removal segments
against `[0, totalDuration]`, starting the cursor at `0`. -/
def buildKeepSegments (fillerSegments : List Seg) (totalDuration : ℚ) : List Seg :=
  buildKeepSegmentsGo totalDuration 0 fillerSegments

/-- Outcome of the caller's check at `editor.routes.ts` lines 173–180:
an empty keep list returns the hard error
`"No speech segments found after filler word detection"`; otherwise
`trimAndConcatVideo` (the media engine) is invoked on the keep list. -/
inductive FillerTrimStep where
  | noSpeechError
  | runEngine (keepSegments : List Seg)
deriving DecidableEq, Repr

/-- The branch `if (keepSegments.length === 0) { return { success: false,
error: 'No speech segments found after filler word detection' } }` of
`removeFillerWordsToFile` in `src/backend/routers/editor.routes.ts`. -/
def fillerTrimStep (keepSegments : List Seg) : FillerTrimStep :=
  if keepSegments.length = 0 then .noSpeechError else .runEngine keepSegments

end EditorRoutes

namespace SilenceTrim

/-- The `for (const silence of silenceSegments)` loop of the silence-path
`buildKeepSegments(silenceSegments, padding)` in `src/unnamed/part_004`
(lines 158–188): pushes `{ start: Math.max(0, currentStart),
end: silence.start - padding }` whenever `silence.start > currentStart +
padding`, advancing the cursor to `silence.end`. -/
def loopKeeps (padding : ℚ) : ℚ → List Seg → List Seg
  | _, [] => []
  | currentStart, silence :: rest =>
      (if silence.start > currentStart + padding
        then [⟨jsMax 0 currentStart, silence.start - padding⟩] else [])
        ++ loopKeeps padding silence.«end» rest

/-- Value of `currentStart` after the loop: the `end` of the last silence
segment, or the initial `0` for an empty list. -/
def finalCursor : ℚ → List Seg → ℚ
  | currentStart, [] => currentStart
  | _, silence :: rest => finalCursor silence.«end» rest

/-- The silence-path `buildKeepSegments(silenceSegments, padding)` from
`src/unnamed/part_004`: loop keeps, then the trailing
`{ start: currentStart + padding, end: -1 }` push when the cursor moved
(`-1` means "until the end of the video"), then the
`{ start: 0, end: -1 }` fallback when nothing was pushed at all. -/
def buildKeepSegments (silenceSegments : List Seg) (padding : ℚ) : List Seg :=
  let keepSegments := loopKeeps padding 0 silenceSegments
  let currentStart := finalCursor 0 silenceSegments
  let keepSegments :=
    keepSegments ++ (if currentStart > 0 then [⟨currentStart + padding, -1⟩] else [])
  if keepSegments.length = 0 then [⟨0, -1⟩] else keepSegments

/-- Interpretation of the `-1` sentinel used by `trimAndConcat` in
`src/unnamed/part_004`: an `end` of `-1` stands for the source's full
duration ("until the end of the video"). -/
def resolveEnd (sourceDuration : ℚ) (s : Seg) : Seg :=
  if s.«end» = -1 then ⟨s.start, sourceDuration⟩ else s

end SilenceTrim

example :
    EditorRoutes.buildKeepSegments [⟨1, 2⟩] 3 = [⟨0, 1⟩, ⟨2, 3⟩] := by decide

example :
    SilenceTrim.buildKeepSegments [⟨4, 6⟩] (12/100)
      = [⟨0, 388/100⟩, ⟨612/100, -1⟩] := by
  norm_num [SilenceTrim.buildKeepSegments, SilenceTrim.loopKeeps,
    SilenceTrim.finalCursor, jsMax]

/-! ## Easing curves and the zoom factor
(`src/backend/services/zoomEffect.service.ts`, `src/zoom-effect-service-fixed.ts`) -/

/-- The `Easing` union type `"linear" | "ease-in" | "ease-out" | "ease-in-out"`. -/
inductive Easing where
  | linear
  | easeIn
  | easeOut
  | easeInOut
deriving DecidableEq, Repr

/-- Denotation of the expression string built by `easingOn(p, easing)`
(`zoomEffect.service.ts` lines 240–248; `easingTime` in
`zoom-effect-service-fixed.ts` is textually identical):
`p`, `pow(p,2)`, `1-pow(1-p,2)`, `p*p*(3-2*p)`. -/
def easingOn (p : ℚ) (easing : Easing) : ℚ :=
  match easing with
  | .linear => p
  | .easeIn => p ^ 2
  | .easeOut => 1 - (1 - p) ^ 2
  | .easeInOut => p * p * (3 - 2 * p)

/-- Denotation of `timeProgress = min(max(t/durationSec,0),1)`
(`zoomEffect.service.ts` line 59). -/
def timeProgress (durationSec t : ℚ) : ℚ :=
  jsMin (jsMax (t / durationSec) 0) 1

/-- Denotation of `zExpr = startZoom+(endZoom-startZoom)*easingExpr`
(`zoomEffect.service.ts` line 61), as a function of the frame time `t`. -/
def zoomFactor (startZoom endZoom durationSec : ℚ) (easing : Easing) (t : ℚ) : ℚ :=
  startZoom + (endZoom - startZoom) * easingOn (timeProgress durationSec t) easing

/-! ## Progress updates of `POST /process-video`
(`src/backend/services/transcribeAudio.service.ts`, routes section) -/

/-- The per-item update `62 + Math.min(10, Math.floor(((i + 1) /
sorted.length) * 10))` inside the transitions loop.  Exact rational floor
`⌊10(i+1)/n⌋` is written with natural division. -/
def transitionPercent (n i : ℕ) : ℕ :=
  62 + min 10 ((10 * (i + 1)) / n)

/-- The per-item update `68 + Math.min(8, Math.floor(((i + 1) /
audios.length) * 8))` inside the audio-overlay loop. -/
def audioPercent (n i : ℕ) : ℕ :=
  68 + min 8 ((8 * (i + 1)) / n)

/-- The sequence of `percent` values written by `updateProgress` during a
fully successful `POST /process-video` run with `numTransitions`
user-supplied transitions and `numAudios` audio overlays: the fixed stage
milestones 5, 10, 12, 18, 45, 60, the optional transition block (62 then
one update per item), the optional audio block (68 then one update per
item), then 75 (subtitles), 85 (burn) and the final 100 with
`done: true`. -/
def processVideoPercents (numTransitions numAudios : ℕ) : List ℕ :=
  [5, 10, 12, 18, 45, 60]
    ++ (if 0 < numTransitions then
          62 :: (List.range numTransitions).map (transitionPercent numTransitions)
        else [])
    ++ (if 0 < numAudios then
          68 :: (List.range numAudios).map (audioPercent numAudios)
        else [])
    ++ [75, 85, 100]

/-- Executable check that a percent sequence never decreases. -/
def nonDecreasing : List ℕ → Bool
  | [] => true
  | [_] => true
  | a :: b :: rest => decide (a ≤ b) && nonDecreasing (b :: rest)

/-! ## Transition ordering (`POST /process-video` step 3.5 and
`POST /apply-transitions`) -/

/-- A user-supplied transition spec `{ id: string, time: number,
duration?: number }`. -/
structure TransitionSpec where
  id : String
  time : ℚ
  duration : Option ℚ := none
deriving DecidableEq, Repr

/-- `const sorted = [...transitions].sort((a, b) => a.time - b.time)`:
a stable sort by ascending `time` (JavaScript `Array.prototype.sort` is
stable, as is `List.mergeSort`).  The subsequent loop invokes
`addTransition` (one splice operation) once per element of `sorted`, in
order, so this list is the execution order of the splices. -/
def sortTransitions (transitions : List TransitionSpec) : List TransitionSpec :=
  transitions.mergeSort (fun a b => decide (a.time ≤ b.time))

/-! ## Subtitle timestamp rendering
(`secondsToAssTime` in `src/backend/services/generateAss.service.ts`
lines 4–11, duplicated verbatim in `editor.routes.ts` lines 677–684) -/

/-- JavaScript `String.prototype.padStart(len, c)`. -/
def padStart (s : String) (len : ℕ) (c : Char) : String :=
  if len ≤ s.length then s else String.mk (List.replicate (len - s.length) c) ++ s

/-- Decimal digits of a fractional part `q ∈ [0, 1)`, most significant
first, stopping at zero (fuelled; every value reached here terminates
well before the fuel runs out). -/
def fracDigitsStr : ℕ → ℚ → String
  | 0, _ => ""
  | fuel + 1, q =>
      if q = 0 then "" else
        let d : ℤ := ⌊q * 10⌋
        toString d ++ fracDigitsStr fuel (q * 10 - (d : ℚ))

/-- JavaScript `Number.prototype.toString()` on the nonnegative numbers
with terminating decimal expansion that reach it here: the integer part,
then a `.` and the fractional digits when the value is not an integer. -/
def jsNumToString (q : ℚ) : String :=
  let ip : ℤ := ⌊q⌋
  let fp := q - (ip : ℚ)
  if fp = 0 then toString ip
  else toString ip ++ "." ++ fracDigitsStr 20 fp

/-- JavaScript `%` (remainder) for the nonnegative operands used here
(for `a ≥ 0`, `n > 0` the truncated and floored remainders agree). -/
def jsMod (a n : ℚ) : ℚ := a - n * ⌊a / n⌋

/-- `secondsToAssTime(seconds)` from `generateAss.service.ts`:
`hrs = Math.floor(seconds / 3600)`, `mins = Math.floor((seconds % 3600) /
60)`, `secs = seconds % 60` (note: not floored), `ms =
Math.floor((seconds - Math.floor(seconds)) * 1000)`, rendered as
`HH:MM:<secs>.<ms>` with `padStart` widths 2, 2, 2, 3. -/
def secondsToAssTime (seconds : ℚ) : String :=
  let hrs : ℤ := ⌊seconds / 3600⌋
  let mins : ℤ := ⌊jsMod seconds 3600 / 60⌋
  let secs : ℚ := jsMod seconds 60
  let ms : ℤ := ⌊(seconds - (⌊seconds⌋ : ℚ)) * 1000⌋
  padStart (toString hrs) 2 '0' ++ ":" ++ padStart (toString mins) 2 '0' ++ ":"
    ++ padStart (jsNumToString secs) 2 '0' ++ "." ++ padStart (toString ms) 3 '0'

/-! ## Probe helpers (`getVideoDuration` in `editor.routes.ts` lines
362–395 / `src/unnamed/part_004` lines 279–312, and
`ZoomEffectService.probe` in `zoomEffect.service.ts` lines 250–278) -/

/-- Observable outcome of the `ffprobe` child process in
`getVideoDuration`: `err` is the `'error'` event (spawn failure); `exit
code parsed` is the `'close'` event, where `parsed = none` means
`JSON.parse(output)` or the `data.format.duration` access threw,
`some none` means `parseFloat` yielded `NaN`, and `some (some d)` is a
parsed numeric duration `d`. -/
inductive FfprobeRun where
  | err
  | exit (code : ℤ) (parsed : Option (Option ℚ))
deriving DecidableEq, Repr

/-- JavaScript `x || d` on numbers: `d` when `x` is falsy (`0` or `NaN`,
the latter encoded as `none`), otherwise `x`. -/
def jsOr (x : Option ℚ) (d : ℚ) : ℚ :=
  match x with
  | none => d
  | some v => if v = 0 then d else v

/-- `getVideoDuration` (both copies are textually identical): resolves
`duration || 0` on a clean exit with parsable output, and `0` on a
non-zero exit, a spawn error, or a parse failure; it never rejects. -/
def getVideoDuration : FfprobeRun → ℚ
  | .err => 0
  | .exit code parsed =>
      if code = 0 then
        match parsed with
        | none => 0
        | some duration => jsOr duration 0
      else 0

namespace ZoomEffect

/-- Result shape of `ZoomEffectService.probe`. -/
structure ProbeResult where
  width : ℚ
  height : ℚ
  fps : ℚ
  durationSec : ℚ
  hasVideo : Bool
deriving DecidableEq, Repr

/-- One entry of the parsed `streams` array: `width`/`height` after
`Number(...)` (with `none` for a missing field or `NaN`), and the raw
frame-rate strings. -/
structure StreamJson where
  width : Option ℚ := none
  height : Option ℚ := none
  r_frame_rate : Option String := none
  avg_frame_rate : Option String := none
deriving DecidableEq, Repr

/-- The parsed `format` object: `duration` after `Number(...)`
(`none` for missing or `NaN`). -/
structure FormatJson where
  duration : Option ℚ := none
deriving DecidableEq, Repr

/-- Parsed `ffprobe` JSON: the optional `streams` array and `format`
object. -/
structure ProbeJson where
  streams : Option (List StreamJson) := none
  format : Option FormatJson := none
deriving DecidableEq, Repr

/-- JavaScript `a || b` on strings: `b` when `a` is `undefined` or the
empty string. -/
def strOr (a : Option String) (b : String) : String :=
  match a with
  | none => b
  | some s => if s = "" then b else s

/-- JavaScript `Math.round`: `⌊x + 1/2⌋` (half-up) on the values used
here. -/
def jsRound (q : ℚ) : ℚ := (⌊q + 1/2⌋ : ℤ)

/-- `Number(s)` on the plain numeral strings `ffprobe` emits in
frame-rate fields (`""` is `0`; a non-numeral is `NaN`, encoded `none`;
sign/exponent forms do not occur here). -/
def jsNumber (s : String) : Option ℚ :=
  if s = "" then some 0 else
    match s.splitOn "." with
    | [a] => (a.toNat?).map (fun n => (n : ℚ))
    | [a, b] =>
        match a.toNat?, b.toNat? with
        | some ia, some ib => some ((ia : ℚ) + (ib : ℚ) / 10 ^ b.length)
        | _, _ => none
    | _ => none

/-- `parseFps(fr)`: split on `/`, default denominator `"1"`, apply
`Number(..) || 30` and `Number(..) || 1`, and return
`Math.round(num/den)` when `den > 0`, else `30`. -/
def parseFps (fr : String) : ℚ :=
  let parts := fr.splitOn "/"
  let n := parts.headD ""
  let d := parts.getD 1 "1"
  let num := jsOr (jsNumber n) 30
  let den := jsOr (jsNumber d) 1
  if 0 < den then jsRound (num / den) else 30

/-- `ZoomEffectService.probe`: `none` is the `catch` branch (the
`execFFprobe` call or `JSON.parse` threw), which yields the fixed
defaults; on parsed JSON it reads the first stream (`?? {}`), computes
`hasVideo`, and applies the `|| 1920` / `|| 1080` / frame-rate / `|| 0`
defaulting of the source. -/
def probe : Option ProbeJson → ProbeResult
  | none => ⟨1920, 1080, 30, 10, true⟩
  | some parsed =>
      let stream := (parsed.streams.getD []).headD {}
      let format := parsed.format.getD {}
      let hasVideo := decide (parsed.streams ≠ none ∧ (parsed.streams.getD []).length > 0)
      let width := if hasVideo then jsOr stream.width 1920 else 0
      let height := if hasVideo then jsOr stream.height 1080 else 0
      let durationSec := jsOr format.duration 0
      let frameRate := strOr stream.r_frame_rate (strOr stream.avg_frame_rate "30/1")
      let fps := if hasVideo then parseFps frameRate else 30
      ⟨width, height, fps, durationSec, hasVideo⟩

end ZoomEffect

/-! ## Background-audio overlay
(`AudioOverlayService.addBackgroundAudio` in
`src/backend/services/audioOverlay.service.ts` lines 27–85, catalog
lookup from `backgroundAudio.service.ts`) -/

/-- A `BackgroundTrack` catalog entry. -/
structure BackgroundTrack where
  id : String
  filename : String
  name : String
  duration : Option ℚ := none
  mood : Option String := none
  bpm : Option ℚ := none
deriving DecidableEq, Repr

/-- `BackgroundAudioService.getTrackById(id)`:
`tracks.find(track => track.id === id) || null`. -/
def getTrackById (tracks : List BackgroundTrack) (id : String) : Option BackgroundTrack :=
  tracks.find? (fun track => track.id == id)

/-- The caller-relevant fields of `AudioOverlayOptions`; `none` is an
absent field (the `{...defaults, ...options}` merge then keeps the
default). -/
structure AudioOverlayOptions where
  startTime : Option ℚ := none
  endTime : Option ℚ := none
  volume : Option ℚ := none
  fadeIn : Option ℚ := none
  fadeOut : Option ℚ := none
  loop : Option Bool := none
deriving DecidableEq, Repr

/-- The environment `addBackgroundAudio` observes: the track catalog
(manifest or directory scan), file existence, the probed video duration
(`probeVideo` substitutes defaults on failure and never throws), and
whether the final `execFFmpeg` invocation exits cleanly. -/
structure OverlayEnv where
  tracks : List BackgroundTrack
  fileExists : String → Bool
  videoDurationSec : ℚ
  engineOk : Bool

/-- Result of one `addBackgroundAudio` call: the overlay duration
`opts.endTime - opts.startTime` handed to the filter graph on success,
or the message of the `Error` thrown. -/
inductive OverlayOutcome where
  | ok (overlayDuration : ℚ)
  | error (msg : String)
deriving DecidableEq, Repr

/-- `AudioOverlayService.addBackgroundAudio`: catalog lookup, file
check, option defaulting, the two clamps `if (opts.startTime < 0)
opts.startTime = 0` and `if (opts.endTime > videoInfo.durationSec)
opts.endTime = videoInfo.durationSec`, the range check, and the engine
invocation (whose failure is rethrown). -/
def addBackgroundAudio (env : OverlayEnv) (backgroundAudioId : String)
    (options : AudioOverlayOptions) : OverlayOutcome :=
  match getTrackById env.tracks backgroundAudioId with
  | none => .error ("Background audio track '" ++ backgroundAudioId ++ "' not found")
  | some track =>
      if !env.fileExists track.filename then
        .error ("Background audio file '" ++ track.filename ++ "' not found")
      else
        let startTime := options.startTime.getD 0
        let endTime := options.endTime.getD env.videoDurationSec
        let startTime := if startTime < 0 then 0 else startTime
        let endTime := if endTime > env.videoDurationSec then env.videoDurationSec else endTime
        if startTime ≥ endTime then .error "Start time must be less than end time"
        else if env.engineOk then .ok (endTime - startTime)
        else .error "FFmpeg failed"

/-- The post-clamp start time: `max(startTime ?? 0, 0)`. -/
def clampedStart (options : AudioOverlayOptions) : ℚ :=
  jsMax (options.startTime.getD 0) 0

/-- The post-clamp end time: `min(endTime ?? durationSec, durationSec)`. -/
def clampedEnd (env : OverlayEnv) (options : AudioOverlayOptions) : ℚ :=
  jsMin (options.endTime.getD env.videoDurationSec) env.videoDurationSec

/-! ## Helper predicates and lemmas for the keep/removal partition -/

/-- Well-formedness of a removal list relative to a cursor `c`: each
segment is proper (`start ≤ end`) and starts no earlier than the previous
segment's `end` (with `c` standing in for the `end` of a virtual previous
segment).  This is the cursor-relative form of "sorted by start and
pairwise non-overlapping". -/
def chainFrom (c : ℚ) : List Seg → Prop
  | [] => True
  | s :: rest => c ≤ s.start ∧ s.start ≤ s.«end» ∧ chainFrom s.«end» rest

theorem chainFrom_intro : ∀ (l : List Seg) (c : ℚ),
    (∀ s ∈ l, s.start ≤ s.«end») →
    l.Chain' (fun a b => a.«end» ≤ b.start) →
    (∀ x ∈ l.head?, c ≤ x.start) →
    chainFrom c l := by
  intro l
  induction l with
  | nil => intro c _ _ _; trivial
  | cons s rest ih =>
      intro c h1 h2 hc
      refine ⟨hc s rfl, h1 s (by simp), ?_⟩
      exact ih s.«end» (fun x hx => h1 x (by simp [hx]))
        (List.chain'_cons'.mp h2).2 (List.chain'_cons'.mp h2).1


theorem chainFrom_bounds : ∀ {l : List Seg} {c : ℚ}, chainFrom c l →
    ∀ s ∈ l, c ≤ s.start ∧ s.start ≤ s.«end» := by
  intro l
  induction l with
  | nil => intro c _ s hs; cases hs
  | cons f rest ih =>
      intro c hc s hs
      cases hs with
      | head => exact ⟨hc.1, hc.2.1⟩
      | tail _ hs =>
          have h := ih hc.2.2 s hs
          exact ⟨le_trans (le_trans hc.1 hc.2.1) h.1, h.2⟩

namespace EditorRoutes

theorem go_bounds (D : ℚ) : ∀ (l : List Seg) (c : ℚ), chainFrom c l →
    (∀ s ∈ l, s.«end» < D) →
    ∀ k ∈ buildKeepSegmentsGo D c l, c ≤ k.start ∧ k.start ≤ k.«end» ∧ k.«end» ≤ D := by
  intro l
  induction l with
  | nil =>
      intro c _ _ k hk
      by_cases hc : c < D
      · simp only [buildKeepSegmentsGo, if_pos hc, List.mem_singleton] at hk
        subst hk
        exact ⟨le_refl _, le_of_lt hc, le_refl _⟩
      · simp [buildKeepSegmentsGo, hc] at hk
  | cons f rest ih =>
      intro c hcf hD k hk
      simp only [buildKeepSegmentsGo, List.mem_append] at hk
      rcases hk with hk | hk
      · by_cases hgt : f.start > c
        · simp only [if_pos hgt, List.mem_singleton] at hk
          subst hk
          exact ⟨le_refl _, le_of_lt hgt,
            le_of_lt (lt_of_le_of_lt hcf.2.1 (hD f (by simp)))⟩
        · simp [hgt] at hk
      · have h := ih f.«end» hcf.2.2 (fun s hs => hD s (by simp [hs])) k hk
        exact ⟨le_trans (le_trans hcf.1 hcf.2.1) h.1, h.2⟩

theorem go_countP (D : ℚ) : ∀ (l : List Seg) (c : ℚ), chainFrom c l →
    (∀ s ∈ l, s.«end» < D) →
    ∀ t : ℚ, c ≤ t → t < D →
      (buildKeepSegmentsGo D c l ++ l).countP (fun s => decide (inSeg t s)) = 1 := by
  intro l
  induction l with
  | nil =>
      intro c _ _ t hct htD
      have hcD : c < D := lt_of_le_of_lt hct htD
      simp [buildKeepSegmentsGo, hcD, List.countP_cons, inSeg, hct, htD]
  | cons f rest ih =>
      intro c hcf hD t hct htD
      obtain ⟨hc_start, hstart_end, hrest⟩ := hcf
      have hrestD : ∀ s ∈ rest, s.«end» < D := fun s hs => hD s (by simp [hs])
      have hlow : ∀ s ∈ buildKeepSegmentsGo D f.«end» rest ++ rest, f.«end» ≤ s.start := by
        intro s hs
        rcases List.mem_append.mp hs with hs | hs
        · exact (go_bounds D rest f.«end» hrest hrestD s hs).1
        · exact (chainFrom_bounds hrest s hs).1
      have hsingle : ∀ x : Seg,
          List.countP (fun s => decide (inSeg t s)) [x]
            = if inSeg t x then 1 else 0 := by
        intro x
        by_cases hx : inSeg t x <;> simp [List.countP_cons, hx]
      have hopt : ∀ b : Prop, ∀ inst : Decidable b, ∀ x : Seg, ¬ inSeg t x →
          List.countP (fun s => decide (inSeg t s))
            (if b then [x] else []) = 0 := by
        intro b inst x hx
        by_cases hb : b <;> simp [hb, hx]
      simp only [buildKeepSegmentsGo, List.append_assoc]
      rw [List.countP_append, List.countP_append, List.countP_cons]
      by_cases h2 : t < f.«end»
      · have hzero :
            (buildKeepSegmentsGo D f.«end» rest).countP (fun s => decide (inSeg t s)) = 0
            ∧ rest.countP (fun s => decide (inSeg t s)) = 0 := by
          constructor <;>
            refine List.countP_eq_zero.mpr fun s hs => ?_ <;>
            · have hfs : f.«end» ≤ s.start := hlow s (by simp [hs, List.mem_append])
              simp only [decide_eq_true_eq, inSeg, not_and, not_lt]
              intro hst
              exact absurd (le_trans hfs hst) (not_le.mpr h2)
        by_cases h1 : t < f.start
        · have hgt : f.start > c := lt_of_le_of_lt hct h1
          have hnf : ¬ inSeg t f := fun h => absurd h.1 (not_le.mpr h1)
          rw [if_pos hgt, hsingle, if_pos ⟨hct, h1⟩, hzero.1, hzero.2,
            if_neg (by simpa [decide_eq_true_eq] using hnf)]
        · push_neg at h1
          have hf : inSeg t f := ⟨h1, h2⟩
          have hkeep : ¬ inSeg t (⟨c, f.start⟩ : Seg) := fun h => absurd h.2 (not_lt.mpr h1)
          rw [hopt _ _ _ hkeep, hzero.1, hzero.2,
            if_pos (by simpa [decide_eq_true_eq] using hf)]
      · push_neg at h2
        have hrec := ih f.«end» hrest hrestD t h2 htD
        rw [List.countP_append] at hrec
        have hkeep : ¬ inSeg t (⟨c, f.start⟩ : Seg) := fun h =>
          absurd h.2 (not_lt.mpr (le_trans hstart_end h2))
        have hf : ¬ inSeg t f := fun h => absurd h.2 (not_lt.mpr h2)
        rw [hopt _ _ _ hkeep, if_neg (by simpa [decide_eq_true_eq] using hf)]
        omega

end EditorRoutes

/-! ## Claim C1 -/

/-- **C1.** For every removal list that is sorted by start and pairwise
non-overlapping (encoded cursor-style: each segment is proper and each
`end` is at most the next `start`), with every segment inside the
timeline and every `end` strictly below `totalDuration`, the keep
segments of the filler-trim `buildKeepSegments(removals, totalDuration)`
together with the removal intervals partition `[0, totalDuration)`:
every point of the timeline lies in exactly one of the (half-open)
keep/removal intervals, and keep intervals are disjoint from removal
intervals. -/
theorem keep_and_removals_partition_timeline (l : List Seg) (D : ℚ)
    (hwf : ∀ s ∈ l, 0 ≤ s.start ∧ s.start ≤ s.«end» ∧ s.«end» < D)
    (hsorted : l.Chain' (fun a b => a.«end» ≤ b.start)) :
    (∀ t : ℚ, 0 ≤ t → t < D →
        (EditorRoutes.buildKeepSegments l D ++ l).countP
          (fun s => decide (inSeg t s)) = 1)
    ∧ ∀ k ∈ EditorRoutes.buildKeepSegments l D, ∀ r ∈ l, ∀ t : ℚ,
        ¬(inSeg t k ∧ inSeg t r) := by
  have hchain : chainFrom 0 l :=
    chainFrom_intro l 0 (fun s hs => (hwf s hs).2.1) hsorted
      (fun x hx => (hwf x (by cases l <;> simp_all)).1)
  have hD : ∀ s ∈ l, s.«end» < D := fun s hs => (hwf s hs).2.2
  have hcount : ∀ t : ℚ, 0 ≤ t → t < D →
      (EditorRoutes.buildKeepSegments l D ++ l).countP
        (fun s => decide (inSeg t s)) = 1 :=
    fun t => EditorRoutes.go_countP D l 0 hchain hD t
  refine ⟨hcount, ?_⟩
  intro k hk r hr t ⟨htk, htr⟩
  have hkb : (0 : ℚ) ≤ k.start ∧ k.start ≤ k.«end» ∧ k.«end» ≤ D :=
    EditorRoutes.go_bounds D l 0 hchain hD k hk
  have ht0 : 0 ≤ t := le_trans hkb.1 htk.1
  have htD : t < D := lt_of_lt_of_le htk.2 hkb.2.2
  have h1 := hcount t ht0 htD
  rw [List.countP_append] at h1
  have hck : 0 < (EditorRoutes.buildKeepSegments l D).countP
      (fun s => decide (inSeg t s)) :=
    List.countP_pos_iff.mpr ⟨k, hk, by simpa [decide_eq_true_eq] using htk⟩
  have hcr : 0 < l.countP (fun s => decide (inSeg t s)) :=
    List.countP_pos_iff.mpr ⟨r, hr, by simpa [decide_eq_true_eq] using htr⟩
  omega

/-- Witness for C1: the single removal `[1, 2)` of the 3-second timeline,
evaluated at the point `t = 1/2` (which lies in the keep segment
`[0, 1)` only). -/
theorem keep_and_removals_partition_timeline_witness :
    (∀ s ∈ ([⟨1, 2⟩] : List Seg), 0 ≤ s.start ∧ s.start ≤ s.«end» ∧ s.«end» < 3)
    ∧ List.Chain' (fun a b : Seg => a.«end» ≤ b.start) [⟨1, 2⟩]
    ∧ (EditorRoutes.buildKeepSegments [⟨1, 2⟩] 3 ++ ([⟨1, 2⟩] : List Seg)).countP
        (fun s => decide (inSeg (1/2) s)) = 1 :=
  ⟨by decide, List.chain'_singleton _,
    (keep_and_removals_partition_timeline [⟨1, 2⟩] 3 (by decide)
      (List.chain'_singleton _)).1 (1/2) (by norm_num) (by norm_num)⟩

/-! ## Claim C2 -/

namespace EditorRoutes

theorem go_empty_of_cover (D : ℚ) : ∀ (l : List Seg) (c : ℚ), chainFrom c l →
    (∀ s ∈ l, s.«end» ≤ D) →
    (∀ t : ℚ, c ≤ t → t < D → ∃ s ∈ l, inSeg t s) →
    buildKeepSegmentsGo D c l = [] := by
  intro l
  induction l with
  | nil =>
      intro c _ _ hcov
      have hcD : ¬ c < D := by
        intro hcD
        obtain ⟨s, hs, -⟩ := hcov c (le_refl c) hcD
        cases hs
      simp [buildKeepSegmentsGo, hcD]
  | cons f rest ih =>
      intro c hcf hD hcov
      obtain ⟨hc_start, hstart_end, hrest⟩ := hcf
      have hfD : f.«end» ≤ D := hD f (by simp)
      have hngt : ¬ f.start > c := by
        intro hgt
        have hcD : c < D := lt_of_lt_of_le (lt_of_lt_of_le hgt hstart_end) hfD
        obtain ⟨s, hs, hseg⟩ := hcov c (le_refl c) hcD
        cases hs with
        | head => exact absurd hseg.1 (not_le.mpr hgt)
        | tail _ hs =>
            have := (chainFrom_bounds hrest s hs).1
            exact absurd (le_trans (le_trans hstart_end this) hseg.1)
              (not_le.mpr hgt)
      have hrec : buildKeepSegmentsGo D f.«end» rest = [] := by
        refine ih f.«end» hrest (fun s hs => hD s (by simp [hs])) ?_
        intro t hft htD
        obtain ⟨s, hs, hseg⟩ := hcov t (le_trans (le_trans hc_start hstart_end) hft) htD
        cases hs with
        | head => exact absurd hseg.2 (not_lt.mpr hft)
        | tail _ hs => exact ⟨s, hs, hseg⟩
      simp [buildKeepSegmentsGo, hngt, hrec]

end EditorRoutes

/-- **C2.** For every duration `D > 0` and every well-formed removal list
(sorted, pairwise non-overlapping, contained in the timeline) that
entirely covers `[0, D)`, the filler-trim `buildKeepSegments` returns the
empty list, and the caller's subsequent branch turns this empty result
into the terminal "no speech segments" error instead of invoking the
media engine. -/
theorem covering_removals_give_empty_and_error (l : List Seg) (D : ℚ) (_hD : 0 < D)
    (hwf : ∀ s ∈ l, 0 ≤ s.start ∧ s.start ≤ s.«end» ∧ s.«end» ≤ D)
    (hsorted : l.Chain' (fun a b => a.«end» ≤ b.start))
    (hcov : ∀ t : ℚ, 0 ≤ t → t < D → ∃ s ∈ l, inSeg t s) :
    EditorRoutes.buildKeepSegments l D = []
    ∧ EditorRoutes.fillerTrimStep (EditorRoutes.buildKeepSegments l D)
        = .noSpeechError := by
  have hchain : chainFrom 0 l :=
    chainFrom_intro l 0 (fun s hs => (hwf s hs).2.1) hsorted
      (fun x hx => (hwf x (by cases l <;> simp_all)).1)
  have hempty : EditorRoutes.buildKeepSegments l D = [] :=
    EditorRoutes.go_empty_of_cover D l 0 hchain (fun s hs => (hwf s hs).2.2) hcov
  exact ⟨hempty, by simp [hempty, EditorRoutes.fillerTrimStep]⟩

/-- Witness for C2: the single removal `[0, 3)` covers the whole
3-second timeline; the builder returns `[]` and the caller errors out. -/
theorem covering_removals_give_empty_and_error_witness :
    (0 : ℚ) < 3
    ∧ EditorRoutes.buildKeepSegments [⟨0, 3⟩] 3 = []
    ∧ EditorRoutes.fillerTrimStep (EditorRoutes.buildKeepSegments [⟨0, 3⟩] 3)
        = .noSpeechError :=
  ⟨by norm_num,
    (covering_removals_give_empty_and_error [⟨0, 3⟩] 3 (by norm_num) (by decide)
      (List.chain'_singleton _)
      (fun t h0 h3 => ⟨⟨0, 3⟩, by simp, by simpa [inSeg] using ⟨h0, h3⟩⟩)).1,
    (covering_removals_give_empty_and_error [⟨0, 3⟩] 3 (by norm_num) (by decide)
      (List.chain'_singleton _)
      (fun t h0 h3 => ⟨⟨0, 3⟩, by simp, by simpa [inSeg] using ⟨h0, h3⟩⟩)).2⟩

/-! ## Claim C4 -/

/-- **C4.** For a 10-second clip whose silence detection yields the
single removal `[4, 6]`, with padding `0.12` (the `minSilenceLength` of
`0.25` only shapes detection, which is given), the silence-path builder
emits exactly the two segments `[0, 3.88]` and `[6.12, -1]` — the second
`end` being the "until source end" sentinel — and with the sentinel
resolved to the 10-second source end both segments lie within
`[0, 10]`. -/
theorem silence_keep_segments_of_10s_clip :
    SilenceTrim.buildKeepSegments [⟨4, 6⟩] (12/100)
      = [⟨0, 388/100⟩, ⟨612/100, -1⟩]
    ∧ ((SilenceTrim.buildKeepSegments [⟨4, 6⟩] (12/100)).map
          (SilenceTrim.resolveEnd 10)).all
        (fun s => decide (0 ≤ s.start ∧ s.start ≤ s.«end» ∧ s.«end» ≤ 10))
      = true := by
  have h : SilenceTrim.buildKeepSegments [⟨4, 6⟩] (12/100)
      = [⟨0, 388/100⟩, ⟨612/100, -1⟩] := by
    norm_num [SilenceTrim.buildKeepSegments, SilenceTrim.loopKeeps,
      SilenceTrim.finalCursor, jsMax]
  refine ⟨h, ?_⟩
  rw [h]
  norm_num [SilenceTrim.resolveEnd]

/-! ## Claim C5 -/

/-- **C5.** Each of the four easing curves maps `0` to `0` and `1` to
`1` and is monotonically non-decreasing on `[0, 1]`, and ease-in and
ease-out are mirror images: `easeIn p = 1 - easeOut (1 - p)`. -/
theorem easing_curves_properties :
    (∀ e : Easing, easingOn 0 e = 0 ∧ easingOn 1 e = 1)
    ∧ (∀ e : Easing, ∀ p q : ℚ, 0 ≤ p → p ≤ q → q ≤ 1 →
        easingOn p e ≤ easingOn q e)
    ∧ ∀ p : ℚ, 0 ≤ p → p ≤ 1 →
        easingOn p .easeIn = 1 - easingOn (1 - p) .easeOut := by
  refine ⟨?_, ?_, ?_⟩
  · intro e; cases e <;> constructor <;> norm_num [easingOn]
  · intro e p q hp hpq hq1
    have hq0 : 0 ≤ q := le_trans hp hpq
    have hp1 : p ≤ 1 := le_trans hpq hq1
    cases e with
    | linear => exact hpq
    | easeIn => simpa [easingOn] using pow_le_pow_left₀ hp hpq 2
    | easeOut =>
        have := pow_le_pow_left₀ (by linarith : (0:ℚ) ≤ 1 - q) (by linarith : 1 - q ≤ 1 - p) 2
        simp only [easingOn]
        linarith
    | easeInOut =>
        simp only [easingOn]
        nlinarith [mul_nonneg (sub_nonneg.mpr hpq) (mul_nonneg hp (by linarith : (0:ℚ) ≤ 1 - q)),
          mul_nonneg (sub_nonneg.mpr hpq) (mul_nonneg hq0 (by linarith : (0:ℚ) ≤ 1 - p)),
          mul_nonneg (sub_nonneg.mpr hpq) (mul_nonneg hp (by linarith : (0:ℚ) ≤ 1 - p)),
          mul_nonneg (sub_nonneg.mpr hpq) (mul_nonneg hq0 (by linarith : (0:ℚ) ≤ 1 - q))]
  · intro p _ _
    simp only [easingOn]
    ring

/-- Witness for C5: the ease-in-out curve evaluated on `0 ≤ 1/2 ≤ 1`,
and the mirror identity at `p = 1/2`. -/
theorem easing_curves_properties_witness :
    easingOn 0 .easeInOut ≤ easingOn (1/2) .easeInOut
    ∧ easingOn (1/2) .easeIn = 1 - easingOn (1 - 1/2) .easeOut :=
  ⟨easing_curves_properties.2.1 .easeInOut 0 (1/2) (le_refl 0) (by norm_num)
      (by norm_num),
    easing_curves_properties.2.2 (1/2) (by norm_num) (by norm_num)⟩

/-! ## Claim C6 -/

/-- **C6.** With `startZoom 1.0`, `endZoom 1.15`, `durationSec 1.0` and
ease-in-out easing, the zoom factor
`z(t) = startZoom + (endZoom-startZoom) * ease(clamp(t/durationSec,0,1))`
is exactly `1.0` at `t = 0`, exactly `1.075` at `t = 0.5`, and exactly
`1.15` at `t = 1.0`. -/
theorem zoom_factor_milestones :
    zoomFactor 1 (23/20) 1 .easeInOut 0 = 1
    ∧ zoomFactor 1 (23/20) 1 .easeInOut (1/2) = 43/40
    ∧ zoomFactor 1 (23/20) 1 .easeInOut 1 = 23/20 := by
  refine ⟨?_, ?_, ?_⟩ <;>
    norm_num [zoomFactor, timeProgress, easingOn, jsMin, jsMax]

/-! ## Claim C7 -/

/-- **C7.** The transition pipeline sorts the supplied specs by ascending
`time` before applying them: the execution order is sorted by `time`, is
a permutation of the input (so, with every application succeeding, the
number of splice operations equals the input length), and in particular
`{id:A, time:3}` followed by `{id:B, time:1}` executes `B` before `A`. -/
theorem transitions_applied_in_time_order :
    (∀ transitions : List TransitionSpec,
        List.Sorted (fun a b => a.time ≤ b.time) (sortTransitions transitions)
        ∧ (sortTransitions transitions).length = transitions.length
        ∧ (sortTransitions transitions).Perm transitions)
    ∧ sortTransitions [⟨"A", 3, none⟩, ⟨"B", 1, none⟩]
        = [⟨"B", 1, none⟩, ⟨"A", 3, none⟩] := by
  constructor
  · intro transitions
    refine ⟨?_, List.length_mergeSort transitions, List.mergeSort_perm transitions _⟩
    have hs := @List.sorted_mergeSort TransitionSpec
      (fun a b => decide (a.time ≤ b.time))
      (fun a b c hab hbc => by
        simp only [decide_eq_true_eq] at *
        exact le_trans hab hbc)
      (fun a b => by
        simp only [Bool.or_eq_true, decide_eq_true_eq]
        exact le_total a.time b.time) transitions
    exact hs.imp (fun h => by simpa using h)
  · simp [sortTransitions, List.mergeSort]

/-! ## Claim C8 -/

/-- **C8.** (code bug) `secondsToAssTime` does not floor the seconds
field: at the failing input `seconds = 3.5` it renders
`"00:00:3.5.500"` — the seconds field is the fractional `"3.5"` and the
fraction appears both there and in the millisecond field — rather than
the two-digit-integer-seconds form `"00:00:03.500"` the claim
describes. -/
theorem secondsToAssTime_at_three_point_five :
    secondsToAssTime (7/2) = "00:00:3.5.500"
    ∧ secondsToAssTime (7/2) ≠ "00:00:03.500" := by
  have h : secondsToAssTime (7/2) = "00:00:3.5.500" := by
    norm_num [secondsToAssTime, jsMod, jsNumToString, fracDigitsStr, padStart]
    decide
  exact ⟨h, by rw [h]; decide⟩

/-! ## Claim C9 -/

/-- **C9.** The probe helpers are total and never reject:
`getVideoDuration` resolves `0` on a spawn error, on any non-zero exit,
and on unparsable output, and resolves the parsed duration on a clean
exit (`duration || 0`, which is the duration itself, `0` being falsy);
`ZoomEffectService.probe` resolves the fixed defaults
`{width 1920, height 1080, fps 30, durationSec 10, hasVideo true}`
whenever probing throws. -/
theorem probe_helpers_never_reject :
    getVideoDuration .err = 0
    ∧ (∀ (code : ℤ) (parsed : Option (Option ℚ)), code ≠ 0 →
        getVideoDuration (.exit code parsed) = 0)
    ∧ getVideoDuration (.exit 0 none) = 0
    ∧ getVideoDuration (.exit 0 (some none)) = 0
    ∧ (∀ d : ℚ, getVideoDuration (.exit 0 (some (some d))) = d)
    ∧ ZoomEffect.probe none = ⟨1920, 1080, 30, 10, true⟩ := by
  refine ⟨rfl, ?_, rfl, rfl, ?_, rfl⟩
  · intro code parsed h
    simp [getVideoDuration, h]
  · intro d
    by_cases hd : d = 0 <;> simp [getVideoDuration, jsOr, hd]

/-- Witness for C9: a non-zero exit code with parsable output still
resolves `0`. -/
theorem probe_helpers_never_reject_witness :
    (1 : ℤ) ≠ 0 ∧ getVideoDuration (.exit 1 (some (some 5))) = 0 :=
  ⟨by decide, probe_helpers_never_reject.2.1 1 (some (some 5)) (by decide)⟩

/-! ## Claim C10 -/

/-- **C10.** `addBackgroundAudio` clamps a negative `startTime` up to `0`
and an `endTime` exceeding the probed duration down to that duration;
it succeeds if and only if the track id is in the catalog, the track's
file exists, the clamped start is strictly below the clamped end, and
the engine invocation succeeds (equivalently, it throws exactly in the
remaining cases), and on success the overlay duration is clamped end
minus clamped start. -/
theorem addBackgroundAudio_spec (env : OverlayEnv) (backgroundAudioId : String)
    (options : AudioOverlayOptions) :
    ((∃ d, addBackgroundAudio env backgroundAudioId options = .ok d) ↔
      ((∃ track, getTrackById env.tracks backgroundAudioId = some track
          ∧ env.fileExists track.filename = true)
        ∧ clampedStart options < clampedEnd env options
        ∧ env.engineOk = true))
    ∧ ∀ d, addBackgroundAudio env backgroundAudioId options = .ok d →
        d = clampedEnd env options - clampedStart options := by
  unfold addBackgroundAudio clampedStart clampedEnd jsMax jsMin
  cases hfind : getTrackById env.tracks backgroundAudioId with
  | none => simp [hfind]
  | some track =>
      cases hex : env.fileExists track.filename with
      | false => simp [hex]
      | true =>
          simp only [hex, Bool.not_true, Bool.false_eq_true, if_false]
          set s := options.startTime.getD 0 with hs
          set e := options.endTime.getD env.videoDurationSec with he
          have hstart : (if s < 0 then (0:ℚ) else s) = if s < 0 then 0 else s := rfl
          by_cases hclamp :
              (if s < 0 then (0:ℚ) else s) ≥ (if e > env.videoDurationSec then env.videoDurationSec else e)
          · have hnlt : ¬ ((if s < 0 then (0:ℚ) else s) < (if env.videoDurationSec < e then env.videoDurationSec else e)) := by
              rw [show ((if env.videoDurationSec < e then env.videoDurationSec else e))
                  = (if e > env.videoDurationSec then env.videoDurationSec else e) from rfl]
              exact not_lt.mpr hclamp
            simp [hclamp, hnlt]
          · have hlt : (if s < 0 then (0:ℚ) else s) < (if env.videoDurationSec < e then env.videoDurationSec else e) := by
              rw [show ((if env.videoDurationSec < e then env.videoDurationSec else e))
                  = (if e > env.videoDurationSec then env.videoDurationSec else e) from rfl]
              exact not_le.mp (by simpa [ge_iff_le] using hclamp)
            cases hEng : env.engineOk with
            | false => simp [hclamp, hEng, hlt]
            | true =>
                simp only [hclamp, if_false, hEng, if_true]
                refine ⟨⟨fun _ => ⟨⟨track, rfl, hex⟩, hlt, by simp [hEng]⟩,
                  fun _ => ⟨_, rfl⟩⟩, fun d hd => ?_⟩
                cases hd
                rfl

/-- Witness for C10: a catalog with one track, `startTime = -1` clamped
to `0`, `endTime = 20` clamped to the probed duration `10`, a clean
engine run, and the resulting overlay duration `10`. -/
def overlayEnvExample : OverlayEnv :=
  ⟨[⟨"rain", "rain.mp3", "Rain", none, none, none⟩], fun _ => true, 10, true⟩

/-- Options for the C10 witness: `startTime -1`, `endTime 20`. -/
def overlayOptionsExample : AudioOverlayOptions :=
  ⟨some (-1), some 20, none, none, none, none⟩

theorem addBackgroundAudio_spec_witness :
    addBackgroundAudio overlayEnvExample "rain" overlayOptionsExample = .ok 10
    ∧ (10 : ℚ) = clampedEnd overlayEnvExample overlayOptionsExample
        - clampedStart overlayOptionsExample := by
  have h : addBackgroundAudio overlayEnvExample "rain" overlayOptionsExample
      = .ok 10 := by
    norm_num [addBackgroundAudio, getTrackById, overlayEnvExample,
      overlayOptionsExample, List.find?]
  exact ⟨h,
    (addBackgroundAudio_spec overlayEnvExample "rain" overlayOptionsExample).2 10 h⟩

/-! ## Claim C3 -/

theorem nonDecreasing_iff_chain :
    ∀ l : List ℕ, nonDecreasing l = true ↔ List.Chain' (· ≤ ·) l := by
  intro l
  induction l with
  | nil => simp [nonDecreasing]
  | cons a t ih =>
      cases t with
      | nil => simp [nonDecreasing]
      | cons b t' =>
          rw [List.chain'_cons, ← ih]
          simp [nonDecreasing]

theorem le_transitionPercent (n i : ℕ) : 62 ≤ transitionPercent n i :=
  Nat.le_add_right 62 _

theorem transitionPercent_le (n i : ℕ) : transitionPercent n i ≤ 72 :=
  Nat.add_le_add_left (Nat.min_le_left 10 _) 62

theorem transitionPercent_mono (n i : ℕ) :
    transitionPercent n i ≤ transitionPercent n (i + 1) := by
  unfold transitionPercent
  have h : 10 * (i + 1) / n ≤ 10 * (i + 1 + 1) / n :=
    Nat.div_le_div_right (by omega)
  exact Nat.add_le_add_left (min_le_min (le_refl 10) h) 62

theorem le_audioPercent (n i : ℕ) : 68 ≤ audioPercent n i :=
  Nat.le_add_right 68 _

theorem audioPercent_mono (n i : ℕ) :
    audioPercent n i ≤ audioPercent n (i + 1) := by
  unfold audioPercent
  have h : 8 * (i + 1) / n ≤ 8 * (i + 1 + 1) / n :=
    Nat.div_le_div_right (by omega)
  exact Nat.add_le_add_left (min_le_min (le_refl 8) h) 68

theorem audioPercent_last (m : ℕ) : audioPercent (m + 1) m = 76 := by
  unfold audioPercent
  rw [Nat.mul_div_cancel 8 (Nat.succ_pos m)]
  rfl

/-- **C3 counterexample.** In a successful run with one transition and
one audio overlay, the percent sequence written to the progress tracker
is `[5, 10, 12, 18, 45, 60, 62, 72, 68, 76, 75, 85, 100]`, which
decreases twice (72 → 68 and 76 → 75): the claimed monotonicity fails. -/
theorem processVideo_percents_not_monotone :
    nonDecreasing (processVideoPercents 1 1) = false := by decide

/-- **C3 (amended).** The percent sequence of a successful
`/process-video` run is monotonically non-decreasing up to the final
`done=true` update exactly when no audio overlays are supplied: the
audio-overlay stage starts at 68 (below the transition stage's final
update of 72) and ends at 76 (above the subtitle stage's 75), while
every run without audio overlays — with or without transitions — is
non-decreasing. -/
theorem processVideo_percents_monotone_iff (nT nA : ℕ) :
    nonDecreasing (processVideoPercents nT nA) = true ↔ nA = 0 := by
  rw [nonDecreasing_iff_chain]
  constructor
  · intro h
    by_contra hA
    obtain ⟨m, rfl⟩ := Nat.exists_eq_succ_of_ne_zero hA
    unfold processVideoPercents at h
    rw [if_pos (Nat.succ_pos m)] at h
    have hbound := (List.chain'_append.mp h).2.2
    have hlastA : (68 :: (List.range (m + 1)).map (audioPercent (m + 1))).getLast?
        = some 76 := by
      rw [List.range_succ, List.map_append, List.map_cons, List.map_nil,
        show (68 :: ((List.range m).map (audioPercent (m + 1)) ++ [audioPercent (m + 1) m]))
          = (68 :: (List.range m).map (audioPercent (m + 1))) ++ [audioPercent (m + 1) m]
          from rfl,
        List.getLast?_concat, audioPercent_last]
    have hx : (([5, 10, 12, 18, 45, 60]
          ++ (if 0 < nT then
                62 :: (List.range nT).map (transitionPercent nT)
              else []))
          ++ 68 :: (List.range (m + 1)).map (audioPercent (m + 1))).getLast?
        = some 76 := by
      rw [List.getLast?_append, hlastA]
      rfl
    have h76 := hbound 76 (by rw [hx]; rfl) 75 rfl
    omega
  · intro hA
    subst hA
    unfold processVideoPercents
    cases nT with
    | zero =>
        rw [if_neg (lt_irrefl 0), if_neg (lt_irrefl 0)]
        exact (nonDecreasing_iff_chain _).mp rfl
    | succ k =>
        rw [if_pos (Nat.succ_pos k), if_neg (lt_irrefl 0), List.append_nil]
        refine List.chain'_append.mpr
          ⟨List.chain'_append.mpr ⟨?_, ?_, ?_⟩, ?_, ?_⟩
        · exact (nonDecreasing_iff_chain _).mp rfl
        · refine List.chain'_cons'.mpr ⟨?_, ?_⟩
          · intro y hy
            obtain ⟨i, -, rfl⟩ := List.mem_map.mp (List.mem_of_mem_head? hy)
            exact le_transitionPercent _ _
          · rw [List.chain'_map, List.chain'_range_succ]
            intro i _
            exact transitionPercent_mono _ _
        · intro x hx y hy
          have hx60 : x ≤ 60 := by
            have := List.mem_of_mem_getLast? hx
            simp at this
            omega
          have h62 : 62 ≤ y := by
            rcases List.mem_cons.mp (List.mem_of_mem_head? hy) with rfl | hym
            · omega
            · obtain ⟨i, -, rfl⟩ := List.mem_map.mp hym
              exact le_transitionPercent _ _
          omega
        · exact (nonDecreasing_iff_chain _).mp rfl
        · intro x hx y hy
          have hx72 : x ≤ 72 := by
            rcases List.mem_append.mp (List.mem_of_mem_getLast? hx) with hxm | hxm
            · simp at hxm
              omega
            · rcases List.mem_cons.mp hxm with rfl | hxm
              · omega
              · obtain ⟨i, -, rfl⟩ := List.mem_map.mp hxm
                exact transitionPercent_le _ _
          have h75 : 75 ≤ y := by
            rcases List.mem_cons.mp (List.mem_of_mem_head? hy) with rfl | hym
            · omega
            · simp at hym
              omega
          omega

/-- **C2 counterexample.** The claim fails for the silence-path
`buildKeepSegments` of `src/unnamed/part_004` (also cited by the claim):
for the removal `[0, 10]` covering the whole 10-second timeline (padding
`0.12`), it does not return an empty sequence — it silently substitutes
the segment `{ start: 10.12, end: -1 }` (last removal end plus padding,
"until source end"), so its caller's empty check never fires. -/
theorem silence_cover_substitutes_segment :
    SilenceTrim.buildKeepSegments [⟨0, 10⟩] (12/100) = [⟨1012/100, -1⟩]
    ∧ SilenceTrim.buildKeepSegments [⟨0, 10⟩] (12/100) ≠ [] := by
  have h : SilenceTrim.buildKeepSegments [⟨0, 10⟩] (12/100) = [⟨1012/100, -1⟩] := by
    norm_num [SilenceTrim.buildKeepSegments, SilenceTrim.loopKeeps,
      SilenceTrim.finalCursor, jsMax]
  exact ⟨h, by rw [h]; simp⟩
